import Mathlib

/-!
Verification of the audio-reactive mandala visualization engine.

The engine's per-frame numeric state updates (feature extraction, beat
detection, pattern and symmetry transitions, hue cycling, symmetry
replication, fractal-tree recursion) are embedded as executable Lean
functions over `ℚ` (idealizing IEEE doubles by exact rationals; every
constant appearing in the source — 0.025, 0.02, 0.5, 1.2, … — is exactly
representable or the computations involved are robust to the idealization)
and `ℤ`/`ℕ` for the integer-valued counters.  Randomness and the values
produced by sibling subsystems are passed in as explicit per-frame inputs.

Sources: the mandala engine in src/unnamed/part_001 (the later, elaborate
revision, which the spec follows), the earlier revision in
src/src/components/MandalaVisualizer.tsx, and the hue accumulators in
src/unnamed/part_000 (WaveformVisualizer) and the FrequencyBars component.
-/

namespace MusicViz

/-- JavaScript `Math.round`: rounds to the nearest integer, halves toward
positive infinity. -/
def jsRound (q : ℚ) : ℤ := ⌊q + 1/2⌋

/-- JavaScript `Math.floor`. -/
def jsFloor (q : ℚ) : ℤ := ⌊q⌋

/-- JavaScript `%` on a nonnegative dividend and positive divisor (the only
way the source uses it, for wrapping `hue` into `[0, 360)`); there it agrees
with the floor-based remainder. -/
def jsMod (a b : ℚ) : ℚ := a - b * ⌊a / b⌋

/-- Checked division: JavaScript division by zero of a zero numerator
(`0/0`) is `NaN`; the embedding returns `none` exactly when the divisor is
zero, `some (a / b)` otherwise. -/
def checkedDiv (a b : ℚ) : Option ℚ := if b = 0 then none else some (a / b)

/-! ## FeatureExtractor (src/unnamed/part_001, lines 164-189)

The loop at lines 174-182 walks indices `0 ≤ i < min 200 bufferLength` and
accumulates `dataArray[i]` into `totalSum` always, into `bassSum` when
`i < bassRange`, into `lowMidSum` when `bassRange ≤ i < lowMidRange`, into
`highMidSum` when `lowMidRange ≤ i < highMidRange` and into `trebleSum`
when `highMidRange ≤ i < trebleRange`; each accumulator is therefore the
sum of a contiguous index range of the array, embedded as `rangeSum`. -/

/-- Sum of `data[i]` for `lo ≤ i < hi` (indices past the end contribute
nothing, mirroring the loop bound `min 200 bufferLength`). -/
def rangeSum (data : List ℕ) (lo hi : ℕ) : ℕ := ((data.take hi).drop lo).sum

/-- The five band energies of lines 185-189.  Each is an `Option ℚ`:
`none` stands for the JavaScript `NaN` produced by a division whose
divisor is zero. -/
structure BandLevels where
  average : Option ℚ
  bass : Option ℚ
  lowMid : Option ℚ
  highMid : Option ℚ
  treble : Option ℚ
deriving DecidableEq

/-- Feature extraction, src/unnamed/part_001 lines 164-189.
`bassRange = min 10 N`, `lowMidRange = min 40 N`, `highMidRange = min 100 N`,
`trebleRange = min 200 N` (lines 168-171).  The `average` and `bass`
divisors are used raw (lines 185-186); the other three are guarded with
`Math.max(1, ·)` (lines 187-189). -/
def bandLevels (data : List ℕ) : BandLevels where
  average := (checkedDiv (rangeSum data 0 (min 200 data.length) : ℚ)
    (min 200 data.length : ℕ)).map (· / 255)
  bass := (checkedDiv (rangeSum data 0 (min 10 data.length) : ℚ)
    (min 10 data.length : ℕ)).map (· / 255)
  lowMid := (checkedDiv (rangeSum data (min 10 data.length) (min 40 data.length) : ℚ)
    (max 1 (min 40 data.length - min 10 data.length) : ℕ)).map (· / 255)
  highMid := (checkedDiv (rangeSum data (min 40 data.length) (min 100 data.length) : ℚ)
    (max 1 (min 100 data.length - min 40 data.length) : ℕ)).map (· / 255)
  treble := (checkedDiv (rangeSum data (min 100 data.length) (min 200 data.length) : ℚ)
    (max 1 (min 200 data.length - min 100 data.length) : ℕ)).map (· / 255)

/-- Spec-side definition of `average`, per the spec's words: the mean of
the first `min 200 N` bin values, divided by 255. -/
def specAverage (data : List ℕ) : ℚ :=
  ((data.take 200).sum : ℚ) / ((data.take 200).length : ℕ) / 255

/-! ## BeatDetector (src/unnamed/part_001, lines 33-46 and 200-217)

Per frame the detector shifts the oldest entry out of its five-slot bass
history, pushes the current bass level, and fires when
`bass > beatAvg * 1.2 && bass > threshold && frame - lastBeat > 10`, with
`threshold = 0.7` (line 42).  On a fire `lastBeat := frame` and
`confidence := min 1 (confidence + 0.1)`; otherwise
`confidence := max 0 (confidence - 0.01)`. -/

/-- Beat-detector state (src/unnamed/part_001 lines 40-45; the constant
`threshold = 0.7` of line 42 is inlined in `beatStep`). -/
structure BeatState where
  history : List ℚ
  lastBeat : ℤ
  confidence : ℚ
deriving DecidableEq

/-- Initial detector state: history of five zeros, `lastBeat = 0`,
`confidence = 0` (src/unnamed/part_001 lines 40-45). -/
def beatInit : BeatState where
  history := List.replicate 5 0
  lastBeat := 0
  confidence := 0

/-- One beat-detection update (src/unnamed/part_001 lines 200-217),
returning the new state and whether a beat fired.  `frame` is the frame
counter after the `frame++` of line 158. -/
def beatStep (frame : ℤ) (bass : ℚ) (st : BeatState) : BeatState × Bool :=
  let history := st.history.drop 1 ++ [bass]
  let beatAvg := history.sum / (history.length : ℕ)
  if bass > beatAvg * 1.2 ∧ bass > 0.7 ∧ frame - st.lastBeat > 10 then
    (⟨history, frame, min 1 (st.confidence + 0.1)⟩, true)
  else
    (⟨history, st.lastBeat, max 0 (st.confidence - 0.01)⟩, false)

/-- Run the detector over consecutive frames starting at `frame`,
collecting the `(frame, fired)` event of each step and the final state. -/
def beatRun (frame : ℤ) (st : BeatState) : List ℚ → List (ℤ × Bool) × BeatState
  | [] => ([], st)
  | b :: rest =>
    let s := beatStep frame b st
    let r := beatRun (frame + 1) s.1 rest
    ((frame, s.2) :: r.1, r.2)

/-! ## Pattern identities (src/unnamed/part_001, lines 72-78) -/

def SPIRAL : ℕ := 0
def FLOWER : ℕ := 1
def STARBURST : ℕ := 2
def NESTED_CIRCLES : ℕ := 3
def FRACTAL_TREE : ℕ := 4
def WAVE_PATTERN : ℕ := 5
def SYMMETRICAL_WEB : ℕ := 6

/-! ## Pattern-candidate selection (src/unnamed/part_001, lines 296-326)

On a pattern-change trigger the candidate list starts from the
capability-dependent base list and is then *reassigned wholesale* by the
dominant-band branches; finally the current pattern is filtered out and
the target is drawn at index `Math.floor(random * length)`. -/

/-- The limited pattern list used when `enableAdvancedEffects` is false
(src/unnamed/part_001 line 304). -/
def limitedPatterns : List ℕ := [SPIRAL, FLOWER, STARBURST, NESTED_CIRCLES]

/-- The full pattern list used when `enableAdvancedEffects` is true
(src/unnamed/part_001 line 301). -/
def fullPatterns : List ℕ :=
  [SPIRAL, FLOWER, STARBURST, NESTED_CIRCLES, FRACTAL_TREE, WAVE_PATTERN, SYMMETRICAL_WEB]

/-- Candidate pattern list (src/unnamed/part_001 lines 297-317): the
dominant-band branches replace the capability-dependent base list. -/
def availablePatterns (advanced : Bool) (bassLevel highMidLevel trebleLevel : ℚ) : List ℕ :=
  let base := if advanced then fullPatterns else limitedPatterns
  if bassLevel > 0.8 ∧ bassLevel > highMidLevel then
    [STARBURST, NESTED_CIRCLES, SYMMETRICAL_WEB]
  else if highMidLevel > 0.7 ∧ highMidLevel > bassLevel then
    [SPIRAL, WAVE_PATTERN, FLOWER]
  else if trebleLevel > 0.7 then
    [FRACTAL_TREE, NESTED_CIRCLES, FLOWER]
  else
    base

/-- Target-pattern choice (src/unnamed/part_001 lines 320-323): filter out
the current pattern, then index by `Math.floor(rand * length)` with
`rand ∈ [0,1)`. -/
def pickTarget (advanced : Bool) (bassLevel highMidLevel trebleLevel : ℚ)
    (currentPattern : ℕ) (rand : ℚ) : ℕ :=
  let avail := (availablePatterns advanced bassLevel highMidLevel trebleLevel).filter
    (fun p => p ≠ currentPattern)
  avail.getD (jsFloor (rand * (avail.length : ℕ))).toNat 0

/-! ## Pattern transition state machine (src/unnamed/part_001, lines 285-336)

`patternChangeCounter++` (line 285); the trigger (line 288) requires the
musical cue, `patternChangeCounter > 180` and `patternTransition === 1`,
and on firing sets `targetPattern`, resets `patternTransition` to 0 and
the counter to 0 (lines 323-325); then the update block (lines 329-336)
advances `patternTransition` by 0.025 (saturating at 1) whenever it is
below 1 and, the moment it reaches exactly 1, commits
`currentPattern = targetPattern`.  The musical cue
`bassImpact || (energyChange && frequencyShift)` is computed upstream from
the audio frame and is passed in here as the boolean `cue`; the random
pattern choice is passed in as `choice`. -/

structure PatternState where
  currentPattern : ℕ
  targetPattern : ℕ
  patternTransition : ℚ
  patternChangeCounter : ℕ
deriving DecidableEq

/-- One per-frame pattern-transition update (src/unnamed/part_001 lines
285-336). -/
def patternStep (cue : Bool) (choice : ℕ) (st : PatternState) : PatternState :=
  let counter := st.patternChangeCounter + 1
  let trig := cue ∧ counter > 180 ∧ st.patternTransition = 1
  let target := if trig then choice else st.targetPattern
  let transition : ℚ := if trig then 0 else st.patternTransition
  let counter := if trig then 0 else counter
  if transition < 1 then
    let t := min 1 (transition + 0.025)
    ⟨if t = 1 then target else st.currentPattern, target, t, counter⟩
  else
    ⟨st.currentPattern, target, transition, counter⟩

/-- Iterate `patternStep` over a list of per-frame `(cue, choice)` inputs. -/
def patternRun : List (Bool × ℕ) → PatternState → PatternState
  | [], st => st
  | i :: rest, st => patternRun rest (patternStep i.1 i.2 st)

/-! ## Symmetry transition (src/unnamed/part_001, lines 49-57 and 338-375)

The trigger (line 339) is `(bassImpact && confidence > 0.6) ||
(frame - lastSymmetryChange > 120 && |energyTrend| > 0.15)`; on firing a
band-dependent even target is drawn (lines 346-355), clamped into
`[4, maxSymmetry]` (line 358), and `symmetryTransition` resets to 0
(line 366).  The update block (lines 370-375) advances the transition by
0.02 (saturating at 1) and recomputes `symmetry` as the `Math.round`-ed
interpolation between the previous `symmetry` and `targetSymmetry`.
`bassImpact`, `confidence` and `energyTrend` are produced by the sibling
subsystems of the same frame and are passed in as inputs, as are the band
levels and the random draw. -/

structure SymState where
  frame : ℤ
  symmetry : ℤ
  targetSymmetry : ℤ
  symmetryTransition : ℚ
  lastSymmetryChange : ℤ
deriving DecidableEq

/-- Initial symmetry state (src/unnamed/part_001 lines 53-57):
`frame = 0`, `symmetry = 8`, `targetSymmetry = symmetry`,
`symmetryTransition = 1`, `lastSymmetryChange = 0`. -/
def symInit : SymState where
  frame := 0
  symmetry := 8
  targetSymmetry := 8
  symmetryTransition := 1
  lastSymmetryChange := 0

/-- Per-frame inputs consumed by the symmetry logic. -/
structure SymInput where
  bassImpact : Bool
  confidence : ℚ
  energyTrend : ℚ
  bassLevel : ℚ
  lowMidLevel : ℚ
  highMidLevel : ℚ
  rand : ℚ
deriving DecidableEq

/-- One per-frame symmetry update (src/unnamed/part_001 lines 158 and
338-375), under the active profile's `maxSymm = maxSymmetry`. -/
def symStep (maxSymm : ℤ) (inp : SymInput) (st : SymState) : SymState :=
  let frame := st.frame + 1
  let trig := (inp.bassImpact ∧ inp.confidence > 0.6) ∨
    (frame - st.lastSymmetryChange > 120 ∧ |inp.energyTrend| > 0.15)
  let minSymmetry : ℤ := 4
  let rolled : ℤ :=
    if inp.bassLevel > 0.7 ∧ inp.bassLevel > inp.highMidLevel then
      minSymmetry + jsFloor (inp.rand * 4) * 2
    else if inp.lowMidLevel > 0.6 then
      minSymmetry + 2 + jsFloor (inp.rand * 4) * 2
    else
      minSymmetry + 4 + jsFloor (inp.rand * ((maxSymm : ℚ) - 8) / 2) * 2
  let target := if trig then min maxSymm (max minSymmetry rolled) else st.targetSymmetry
  let lastChange := if trig then frame else st.lastSymmetryChange
  let transition : ℚ := if trig then 0 else st.symmetryTransition
  if transition < 1 then
    let t := min 1 (transition + 0.02)
    { frame := frame
      symmetry := jsRound ((st.symmetry : ℚ) * (1 - t) + (target : ℚ) * t)
      targetSymmetry := target
      symmetryTransition := t
      lastSymmetryChange := lastChange }
  else
    { frame := frame
      symmetry := st.symmetry
      targetSymmetry := target
      symmetryTransition := transition
      lastSymmetryChange := lastChange }

/-- Iterate `symStep` over a list of per-frame inputs. -/
def symRun (maxSymm : ℤ) : List SymInput → SymState → SymState
  | [], st => st
  | i :: rest, st => symRun maxSymm rest (symStep maxSymm i st)

/-- A silent frame: no bass impact, no confidence, flat energy trend. -/
def quietInput : SymInput where
  bassImpact := false
  confidence := 0
  energyTrend := 0
  bassLevel := 0
  lowMidLevel := 0
  highMidLevel := 0
  rand := 0

/-- A frame that fires the trend-based symmetry trigger with a bass-heavy
spectrum and a random draw selecting target symmetry 6
(`4 + ⌊0.25 * 4⌋ * 2 = 6`). -/
def trendTrigInput : SymInput where
  bassImpact := false
  confidence := 0
  energyTrend := 0.2
  bassLevel := 0.9
  lowMidLevel := 0
  highMidLevel := 0
  rand := 0.25

/-- An input sequence reaching an odd symmetry from the initial state under
the default profile (`maxSymmetry = 10`): 121 silent frames let the
121-frame dwell elapse, a trend-triggered change to target 6 starts, and
12 further frames advance the interpolation to `symmetryTransition = 0.26`
where `Math.round(8 * 0.74 + 6 * 0.26) = Math.round(7.48) = 7`. -/
def oddSymInputs : List SymInput :=
  List.replicate 121 quietInput ++ [trendTrigInput] ++ List.replicate 12 quietInput

/-! ## Symmetry replication loop (src/unnamed/part_001, lines 419-479)

`actualSymmetry = Math.min(symmetry, performanceConfig.maxSymmetry)`
(line 420); each pattern pass then draws one copy per
`0 ≤ i < actualSymmetry`, rotated by `TWO_PI * i / actualSymmetry`
(lines 427-429, 445-447, 465-467).  Angles are recorded as fractions of a
full turn. -/

/-- The rotational copies one pattern pass draws in a frame. -/
def rotationCopies (symmetry maxSymmetry : ℤ) : List ℚ :=
  (List.range (min symmetry maxSymmetry).toNat).map
    (fun (i : ℕ) => (i : ℚ) / ((min symmetry maxSymmetry : ℤ) : ℚ))

/-! ## Fractal tree (src/unnamed/part_001, lines 889-945)

`drawBranch` returns at `depth === 0`, draws one branch segment, recurses
twice with `depth - 1`, and recurses a third time (the middle branch) only
when `depth > 1` and the energy condition
`bassLevel > 0.6 || lowMidLevel > 0.7` holds — a condition constant over
one frame, abstracted here as `takeMid`.  `drawBranchCount` counts the
branch segments drawn. -/

/-- Number of branch segments drawn by `drawBranch` at a given remaining
depth, when the middle branch is taken at every eligible depth iff
`takeMid`. -/
def drawBranchCount (takeMid : Bool) : ℕ → ℕ
  | 0 => 0
  | d + 1 =>
    1 + 2 * drawBranchCount takeMid d +
      (if takeMid ∧ d + 1 > 1 then drawBranchCount takeMid d else 0)

/-! ## Hue accumulator (src/unnamed/part_000 line 51, FrequencyBars line
1315 of src/unnamed/part_001): `hue = (hue + 0.5) % 360` each frame. -/

/-- One hue update. -/
def hueStep (hue : ℚ) : ℚ := jsMod (hue + 0.5) 360

/-- Hue after `n` frames starting from `hue = 0`. -/
def hueIter : ℕ → ℚ
  | 0 => 0
  | n + 1 => hueStep (hueIter n)

/-- The frequency-magnitude frame of the beat-detection scenario: all ten
bass bins at 255, every other bin 0. -/
def beatScenarioBins : List ℕ := List.replicate 10 255 ++ List.replicate 6 0

end MusicViz

unseal Rat.add Rat.mul Rat.sub Rat.inv Rat.ofScientific

namespace MusicViz

set_option maxRecDepth 8000

/-- Claim C2 (counterexample): the claim says that for a zero-length
frequency-magnitude array every band energy is zero and no division is
undefined; in fact the `bass` and `average` divisors are used unguarded
(part_001 lines 185-186), so on the empty array both are `0/0`, i.e. NaN
(`none` in this embedding), not zero. -/
theorem bandLevels_empty_cex :
    (bandLevels []).bass = none ∧ (bandLevels []).average = none := by
  decide

/-- Claim C2 (amended): for a zero-length frequency-magnitude array the
`lowMid`, `highMid` and `treble` energies are zero because their divisors
are guarded by `Math.max(1, ·)`, but `bass` and `average` divide by the raw
band widths, which are zero there, so both are undefined (NaN). -/
theorem bandLevels_empty_amended :
    (bandLevels []).lowMid = some 0 ∧ (bandLevels []).highMid = some 0 ∧
    (bandLevels []).treble = some 0 ∧ (bandLevels []).bass = none ∧
    (bandLevels []).average = none := by
  decide

/-- Claim C3 (counterexample): the claim says the detector fires exactly
once in the 15-frame all-bass window; in fact the scenario frame does give
bass level 1.0, but the run from the initial detector state over 15 such
frames contains no fire event at all (so the fire count is not 1): by the
first frame past the cooldown the five-slot history already averages 1.0
and `1.0 > 1.0 * 1.2` fails. -/
theorem beatScenario_cex :
    (bandLevels beatScenarioBins).bass = some 1 ∧
    ¬ (beatRun 1 beatInit (List.replicate 15 1)).1.countP (fun e => e.2) = 1 := by
  decide

/-- Claim C3 (amended): feeding the all-bass frame (bass level 1.0) for 15
consecutive frames from the initial detector state makes the detector fire
zero times in that window — before frame 11 the cooldown
`frame - lastBeat > 10` fails, and from frame 5 on the history average is
1.0 so `bass > beatAverage * 1.2` fails — and `confidence` ends at 0. -/
theorem beatScenario_amended :
    (bandLevels beatScenarioBins).bass = some 1 ∧
    (beatRun 1 beatInit (List.replicate 15 1)).1.countP (fun e => e.2) = 0 ∧
    (beatRun 1 beatInit (List.replicate 15 1)).2.confidence = 0 := by
  decide

/-- Strengthened induction bound for the fractal tree: the draw count
satisfies `2 * count + 1 ≤ 3 ^ depth`. -/
theorem drawBranchCount_aux (takeMid : Bool) (d : ℕ) :
    2 * drawBranchCount takeMid d + 1 ≤ 3 ^ d := by
  induction d with
  | zero => simp [drawBranchCount]
  | succ k ih =>
    rw [drawBranchCount, pow_succ]
    by_cases hm : takeMid ∧ k + 1 > 1
    · rw [if_pos hm]; omega
    · rw [if_neg hm]; omega

/-- Claim C7 (confirmed): the fractal-tree recursion is total — the Lean
embedding `drawBranchCount` is accepted by structural recursion on the
strictly decreasing depth with base case 0 — and for every depth and every
choice of the middle-branch condition (including taking it at every
eligible depth) the number of branch draw calls is at most `3 ^ depth`. -/
theorem fractal_tree_bounded (takeMid : Bool) (depth : ℕ) :
    drawBranchCount takeMid depth ≤ 3 ^ depth := by
  have h := drawBranchCount_aux takeMid depth
  omega

/-- Claim C10 (confirmed): each pattern pass of a rendered frame draws
exactly `min symmetry maxSymmetry` rotational copies (part_001 lines
419-479), so the drawn copy count never exceeds `maxSymmetry`, even when
the `symmetry` state variable does. -/
theorem drawn_copies_min (symmetry maxSymmetry : ℤ)
    (hs : 0 ≤ symmetry) (hM : 0 ≤ maxSymmetry) :
    ((rotationCopies symmetry maxSymmetry).length : ℤ) = min symmetry maxSymmetry ∧
    ((rotationCopies symmetry maxSymmetry).length : ℤ) ≤ maxSymmetry := by
  have hmin : 0 ≤ min symmetry maxSymmetry := le_min hs hM
  have hnat : (rotationCopies symmetry maxSymmetry).length = (min symmetry maxSymmetry).toNat := by
    unfold rotationCopies
    rw [List.length_map, List.length_range]
  have hlen : ((rotationCopies symmetry maxSymmetry).length : ℤ) = min symmetry maxSymmetry := by
    rw [hnat, Int.toNat_of_nonneg hmin]
  exact ⟨hlen, hlen ▸ min_le_right _ _⟩

/-- Claim C10 witness: under the mobile profile (`maxSymmetry = 4`) with
the initial symmetry 8, exactly `min 8 4 = 4` copies are drawn. -/
theorem drawn_copies_min_witness :
    ((rotationCopies 8 4).length : ℤ) = min 8 4 ∧
    ((rotationCopies 8 4).length : ℤ) ≤ 4 :=
  drawn_copies_min 8 4 (by norm_num) (by norm_num)

/-- Claim C9 (confirmed): when a pattern change triggers with the
bass-dominant branch (`bass > 0.8` and `bass > highMid`), the candidate
list is replaced wholesale by `[STARBURST, NESTED_CIRCLES,
SYMMETRICAL_WEB]` regardless of `enableAdvancedEffects`, so
`SYMMETRICAL_WEB` — which is outside the limited low-capability list —
can become the target pattern even with `enableAdvancedEffects = false`
(here: current pattern FLOWER, random draw 5/6). -/
theorem pattern_selection_overrides_capability
    (advanced : Bool) (bassLevel highMidLevel trebleLevel : ℚ)
    (hb : bassLevel > 0.8) (hd : bassLevel > highMidLevel) :
    availablePatterns advanced bassLevel highMidLevel trebleLevel =
      [STARBURST, NESTED_CIRCLES, SYMMETRICAL_WEB] ∧
    SYMMETRICAL_WEB ∉ limitedPatterns ∧
    pickTarget false bassLevel highMidLevel trebleLevel FLOWER (5/6) = SYMMETRICAL_WEB := by
  have h1 : availablePatterns advanced bassLevel highMidLevel trebleLevel =
      [STARBURST, NESTED_CIRCLES, SYMMETRICAL_WEB] := by
    unfold availablePatterns
    rw [if_pos ⟨hb, hd⟩]
  have h1f : availablePatterns false bassLevel highMidLevel trebleLevel =
      [STARBURST, NESTED_CIRCLES, SYMMETRICAL_WEB] := by
    unfold availablePatterns
    rw [if_pos ⟨hb, hd⟩]
  refine ⟨h1, by decide, ?_⟩
  unfold pickTarget
  rw [h1f]
  decide

/-- Claim C9 witness: at bass 0.9, highMid 0.1, treble 0 with
`enableAdvancedEffects = false`, the target pattern is SYMMETRICAL_WEB. -/
theorem pattern_selection_overrides_capability_witness :
    availablePatterns false 0.9 0.1 0 =
      [STARBURST, NESTED_CIRCLES, SYMMETRICAL_WEB] ∧
    SYMMETRICAL_WEB ∉ limitedPatterns ∧
    pickTarget false 0.9 0.1 0 FLOWER (5/6) = SYMMETRICAL_WEB :=
  pattern_selection_overrides_capability false 0.9 0.1 0 (by norm_num) (by norm_num)

/-- As long as the hue stays below 359.5, one hue update is a plain
increment by 0.5 (no wrap). -/
theorem hueStep_no_wrap (h : ℚ) (h0 : 0 ≤ h) (h1 : h + 0.5 < 360) :
    hueStep h = h + 0.5 := by
  unfold hueStep jsMod
  have hfloor : ⌊(h + 0.5) / 360⌋ = 0 := by
    rw [Int.floor_eq_zero_iff]
    constructor
    · positivity
    · rw [div_lt_one (by norm_num : (0:ℚ) < 360)]
      linarith
  rw [hfloor]
  ring

/-- For the first 719 frames the hue accumulator is simply `n / 2`. -/
theorem hueIter_le_719 (n : ℕ) (hn : n ≤ 719) : hueIter n = (n : ℚ) / 2 := by
  induction n with
  | zero => simp [hueIter]
  | succ k ih =>
    have hk : k ≤ 719 := by omega
    have hk2 : (k : ℚ) ≤ 718 := by exact_mod_cast Nat.le_of_lt_succ (by omega)
    rw [hueIter, ih hk, hueStep_no_wrap ((k : ℚ) / 2) (by positivity) (by norm_num; linarith)]
    push_cast
    ring

/-- At frame 720 the hue accumulator wraps back to exactly 0. -/
theorem hueIter_720 : hueIter 720 = 0 := by
  have h719 : hueIter 719 = (719 : ℚ) / 2 := hueIter_le_719 719 (by norm_num)
  show hueStep (hueIter 719) = 0
  rw [h719]
  unfold hueStep jsMod
  have hfloor : ⌊((719 : ℚ) / 2 + 0.5) / 360⌋ = 1 := by norm_num
  rw [hfloor]
  norm_num

/-- The hue run is periodic with period 720 frames. -/
theorem hueIter_add_720 (m : ℕ) : hueIter (720 + m) = hueIter m := by
  induction m with
  | zero => simpa using hueIter_720
  | succ k ih =>
    have hrw : 720 + (k + 1) = (720 + k) + 1 := by omega
    rw [hrw, hueIter, ih, hueIter]

/-- Claim C8 (confirmed): starting from hue 0 and applying
`hue = (hue + 0.5) % 360` once per frame, after 1000 frames the hue is
exactly `(0.5 * 1000) % 360 = 140`. -/
theorem hue_wraparound_1000 :
    hueIter 1000 = jsMod (0.5 * 1000) 360 ∧ hueIter 1000 = 140 := by
  have hsplit : (1000 : ℕ) = 720 + 280 := by norm_num
  have h280 : hueIter 280 = 140 := by
    rw [hueIter_le_719 280 (by norm_num)]
    norm_num
  have h1000 : hueIter 1000 = 140 := by
    rw [hsplit, hueIter_add_720, h280]
  have hmod : jsMod (0.5 * 1000) 360 = 140 := by
    unfold jsMod
    have hfloor : ⌊((0.5 : ℚ) * 1000) / 360⌋ = 1 := by norm_num
    rw [hfloor]
    norm_num
  exact ⟨h1000.trans hmod.symm, h1000⟩

/-- A range sum is bounded by 255 times the width of the range, provided
every array value is at most 255. -/
theorem rangeSum_le (data : List ℕ) (lo hi : ℕ) (hv : ∀ v ∈ data, v ≤ 255) :
    rangeSum data lo hi ≤ 255 * (hi - lo) := by
  unfold rangeSum
  have hsub : ∀ v ∈ (data.take hi).drop lo, v ≤ 255 := fun v hv' =>
    hv v (List.take_subset hi data (List.drop_subset lo (data.take hi) hv'))
  have hlen : ((data.take hi).drop lo).length ≤ hi - lo := by
    rw [List.length_drop, List.length_take]
    omega
  calc ((data.take hi).drop lo).sum
      ≤ ((data.take hi).drop lo).length • 255 := List.sum_le_card_nsmul _ _ hsub
    _ = ((data.take hi).drop lo).length * 255 := smul_eq_mul _
    _ ≤ (hi - lo) * 255 := Nat.mul_le_mul_right _ hlen
    _ = 255 * (hi - lo) := Nat.mul_comm _ _

/-- A mean of the form `s / w / 255` with `s ≤ 255 * w` and `w ≥ 1` lies
in `[0, 1]`. -/
theorem meanBounds (s w : ℕ) (hw : 1 ≤ w) (hs : s ≤ 255 * w) :
    0 ≤ (s : ℚ) / (w : ℕ) / 255 ∧ (s : ℚ) / (w : ℕ) / 255 ≤ 1 := by
  have hw0 : (0 : ℚ) < (w : ℕ) := by exact_mod_cast hw
  constructor
  · positivity
  · rw [div_le_one (by norm_num : (0:ℚ) < 255), div_le_iff₀ hw0]
    calc (s : ℚ) ≤ ((255 * w : ℕ) : ℚ) := by exact_mod_cast hs
      _ = 255 * (w : ℕ) := by push_cast; ring

/-- A checked band division with a positive divisor and a bounded
numerator is defined and lands in `[0, 1]`. -/
theorem levelBounds (s w : ℕ) (hw : 1 ≤ w) (hs : s ≤ 255 * w) :
    (((checkedDiv (s : ℚ) (w : ℕ)).map (· / 255)).elim False fun x => 0 ≤ x ∧ x ≤ 1) := by
  have hw0 : ((w : ℕ) : ℚ) ≠ 0 := by
    have : (0 : ℚ) < (w : ℕ) := by exact_mod_cast hw
    exact ne_of_gt this
  simp only [checkedDiv, if_neg hw0, Option.map_some, Option.elim]
  exact meanBounds s w hw hs

/-- Claim C6 (confirmed): for every non-empty frequency-magnitude array
with values in `[0, 255]`, each band energy (bass, lowMid, highMid,
treble) and the overall average are defined and lie in `[0, 1]`, and the
average equals the mean of the first `min 200 N` bin values divided by
255 (the length-weighted mean of all considered bins). -/
theorem band_energies_bounds (data : List ℕ) (hne : data ≠ [])
    (hv : ∀ v ∈ data, v ≤ 255) :
    (bandLevels data).average = some (specAverage data) ∧
    (0 ≤ specAverage data ∧ specAverage data ≤ 1) ∧
    ((bandLevels data).bass.elim False fun x => 0 ≤ x ∧ x ≤ 1) ∧
    ((bandLevels data).lowMid.elim False fun x => 0 ≤ x ∧ x ≤ 1) ∧
    ((bandLevels data).highMid.elim False fun x => 0 ≤ x ∧ x ≤ 1) ∧
    ((bandLevels data).treble.elim False fun x => 0 ≤ x ∧ x ≤ 1) := by
  have hlen : 1 ≤ data.length := List.length_pos.mpr hne
  have htake : data.take (min 200 data.length) = data.take 200 := by
    rcases le_total data.length 200 with h | h
    · rw [min_eq_right h, List.take_length, List.take_of_length_le h]
    · rw [min_eq_left h]
  have htakelen : (data.take 200).length = min 200 data.length := List.length_take 200 data
  have htsum : rangeSum data 0 (min 200 data.length) = (data.take 200).sum := by
    rw [rangeSum, List.drop_zero, htake]
  have htakemem : ∀ v ∈ data.take 200, v ≤ 255 := fun v hv' =>
    hv v (List.take_subset 200 data hv')
  have hsum200 : (data.take 200).sum ≤ 255 * (data.take 200).length := by
    calc (data.take 200).sum ≤ (data.take 200).length • 255 :=
        List.sum_le_card_nsmul _ _ htakemem
      _ = (data.take 200).length * 255 := smul_eq_mul _
      _ = 255 * (data.take 200).length := Nat.mul_comm _ _
  have hw200 : 1 ≤ (data.take 200).length := by omega
  refine ⟨?_, ?_, ?_, ?_, ?_, ?_⟩
  · have hw0 : ((min 200 data.length : ℕ) : ℚ) ≠ 0 := by
      have : (0 : ℚ) < (min 200 data.length : ℕ) := by
        have : 1 ≤ min 200 data.length := by omega
        exact_mod_cast this
      exact ne_of_gt this
    simp only [bandLevels, checkedDiv, if_neg hw0, specAverage]
    rw [htsum, htakelen]
    rfl
  · unfold specAverage
    rw [htakelen] at hsum200 hw200 ⊢
    exact meanBounds _ _ hw200 hsum200
  · show ((checkedDiv (rangeSum data 0 (min 10 data.length) : ℚ)
      (min 10 data.length : ℕ)).map (· / 255)).elim False fun x => 0 ≤ x ∧ x ≤ 1
    refine levelBounds _ _ (by omega) ?_
    have := rangeSum_le data 0 (min 10 data.length) hv
    omega
  · show ((checkedDiv (rangeSum data (min 10 data.length) (min 40 data.length) : ℚ)
      (max 1 (min 40 data.length - min 10 data.length) : ℕ)).map (· / 255)).elim False
      fun x => 0 ≤ x ∧ x ≤ 1
    refine levelBounds _ _ (le_max_left _ _) ?_
    have := rangeSum_le data (min 10 data.length) (min 40 data.length) hv
    have hmax : min 40 data.length - min 10 data.length ≤
        max 1 (min 40 data.length - min 10 data.length) := le_max_right _ _
    calc rangeSum data (min 10 data.length) (min 40 data.length)
        ≤ 255 * (min 40 data.length - min 10 data.length) := this
      _ ≤ 255 * max 1 (min 40 data.length - min 10 data.length) :=
        Nat.mul_le_mul_left 255 hmax
  · show ((checkedDiv (rangeSum data (min 40 data.length) (min 100 data.length) : ℚ)
      (max 1 (min 100 data.length - min 40 data.length) : ℕ)).map (· / 255)).elim False
      fun x => 0 ≤ x ∧ x ≤ 1
    refine levelBounds _ _ (le_max_left _ _) ?_
    have := rangeSum_le data (min 40 data.length) (min 100 data.length) hv
    have hmax : min 100 data.length - min 40 data.length ≤
        max 1 (min 100 data.length - min 40 data.length) := le_max_right _ _
    calc rangeSum data (min 40 data.length) (min 100 data.length)
        ≤ 255 * (min 100 data.length - min 40 data.length) := this
      _ ≤ 255 * max 1 (min 100 data.length - min 40 data.length) :=
        Nat.mul_le_mul_left 255 hmax
  · show ((checkedDiv (rangeSum data (min 100 data.length) (min 200 data.length) : ℚ)
      (max 1 (min 200 data.length - min 100 data.length) : ℕ)).map (· / 255)).elim False
      fun x => 0 ≤ x ∧ x ≤ 1
    refine levelBounds _ _ (le_max_left _ _) ?_
    have := rangeSum_le data (min 100 data.length) (min 200 data.length) hv
    have hmax : min 200 data.length - min 100 data.length ≤
        max 1 (min 200 data.length - min 100 data.length) := le_max_right _ _
    calc rangeSum data (min 100 data.length) (min 200 data.length)
        ≤ 255 * (min 200 data.length - min 100 data.length) := this
      _ ≤ 255 * max 1 (min 200 data.length - min 100 data.length) :=
        Nat.mul_le_mul_left 255 hmax

/-- Claim C6 witness: the two-bin frame `[255, 0]` has all band energies
defined and in `[0, 1]`, with the average equal to the spec-side mean. -/
theorem band_energies_bounds_witness :
    (bandLevels [255, 0]).average = some (specAverage [255, 0]) ∧
    (0 ≤ specAverage [255, 0] ∧ specAverage [255, 0] ≤ 1) ∧
    ((bandLevels [255, 0]).bass.elim False fun x => 0 ≤ x ∧ x ≤ 1) ∧
    ((bandLevels [255, 0]).lowMid.elim False fun x => 0 ≤ x ∧ x ≤ 1) ∧
    ((bandLevels [255, 0]).highMid.elim False fun x => 0 ≤ x ∧ x ≤ 1) ∧
    ((bandLevels [255, 0]).treble.elim False fun x => 0 ≤ x ∧ x ≤ 1) :=
  band_energies_bounds [255, 0] (by decide) (by decide)

/-- A triggering frame: from a stable state (`patternTransition = 1`) with
the dwell elapsed, a frame with the musical cue resets the transition and
immediately advances it to 0.025, keeping the old current pattern. -/
theorem patternStep_fire (choice : ℕ) (st : PatternState)
    (h1 : st.patternTransition = 1) (h2 : 180 ≤ st.patternChangeCounter) :
    patternStep true choice st = ⟨st.currentPattern, choice, 0.025, 0⟩ := by
  have hc : st.patternChangeCounter + 1 > 180 := by omega
  simp only [patternStep, h1]
  norm_num [hc, min_def]

/-- A mid-transition frame: at progress `k * 0.025` with `1 ≤ k ≤ 39`, no
new transition can start (the trigger requires progress exactly 1) and the
progress advances by exactly 0.025; the current pattern flips to the
target exactly when the progress reaches 1 (at `k + 1 = 40`). -/
theorem patternStep_mid (cue : Bool) (choice : ℕ) (st : PatternState) (k : ℕ)
    (hk1 : 1 ≤ k) (hk : k ≤ 39) (ht : st.patternTransition = (k : ℚ) * 0.025) :
    patternStep cue choice st =
      ⟨if k + 1 = 40 then st.targetPattern else st.currentPattern,
       st.targetPattern, ((k : ℚ) + 1) * 0.025, st.patternChangeCounter + 1⟩ := by
  have hne1 : st.patternTransition ≠ 1 := by
    rw [ht]
    intro hcontra
    have : (k : ℚ) = 40 := by linarith [hcontra]
    have : k = 40 := by exact_mod_cast this
    omega
  have htrig : ¬ (cue = true ∧ st.patternChangeCounter + 1 > 180 ∧
      st.patternTransition = 1) := fun h => hne1 h.2.2
  have hkq : (k : ℚ) ≤ 39 := by exact_mod_cast hk
  have hlt : st.patternTransition < 1 := by rw [ht]; linarith
  have hmin : min (1 : ℚ) (st.patternTransition + 0.025) = ((k : ℚ) + 1) * 0.025 := by
    rw [ht, min_eq_right (by linarith)]
    ring
  simp only [patternStep, if_neg htrig, if_pos hlt, hmin]
  by_cases h40 : k + 1 = 40
  · have : ((k : ℚ) + 1) * 0.025 = 1 := by
      have : (k : ℚ) = 39 := by exact_mod_cast (by omega : k = 39)
      rw [this]; norm_num
    rw [if_pos this, if_pos h40]
  · have : ¬ ((k : ℚ) + 1) * 0.025 = 1 := by
      intro hcontra
      have : (k : ℚ) = 39 := by linarith
      have : k = 39 := by exact_mod_cast this
      omega
    rw [if_neg this, if_neg h40]

/-- Running a mid-transition segment: starting at progress `k * 0.025`,
after `n` further frames (any cues, any choices, with `k + n ≤ 40`) the
progress is `(k + n) * 0.025`, the target is unchanged, the current
pattern is unchanged while `k + n < 40`, and it equals the target the
moment the progress reaches 1. -/
theorem patternRun_mid (ins : List (Bool × ℕ)) (k : ℕ) (st : PatternState)
    (hk1 : 1 ≤ k) (hksum : k + ins.length ≤ 40)
    (ht : st.patternTransition = (k : ℚ) * 0.025)
    (hcur : k = 40 → st.currentPattern = st.targetPattern) :
    (patternRun ins st).patternTransition = ((k + ins.length : ℕ) : ℚ) * 0.025 ∧
    (patternRun ins st).targetPattern = st.targetPattern ∧
    (k + ins.length < 40 → (patternRun ins st).currentPattern = st.currentPattern) ∧
    (k + ins.length = 40 → (patternRun ins st).currentPattern = st.targetPattern) := by
  induction ins generalizing k st with
  | nil =>
    refine ⟨by simpa using ht, rfl, fun _ => rfl, fun h40 => hcur (by simp at h40; omega)⟩
  | cons i rest ih =>
    have hlen1 : (i :: rest).length = rest.length + 1 := rfl
    rw [hlen1] at hksum
    have hk39 : k ≤ 39 := by omega
    have hstep := patternStep_mid i.1 i.2 st k hk1 hk39 ht
    have hrun : patternRun (i :: rest) st = patternRun rest (patternStep i.1 i.2 st) := rfl
    rw [hrun, hstep]
    have ih' := ih (k + 1)
      (⟨if k + 1 = 40 then st.targetPattern else st.currentPattern,
        st.targetPattern, ((k : ℚ) + 1) * 0.025, st.patternChangeCounter + 1⟩)
      (by omega) (by omega)
      (by show ((k : ℚ) + 1) * 0.025 = ((k + 1 : ℕ) : ℚ) * 0.025; push_cast; ring)
      (by
        intro h40
        show (if k + 1 = 40 then st.targetPattern else st.currentPattern) = st.targetPattern
        rw [if_pos h40])
    obtain ⟨ih1, ih2, ih3, ih4⟩ := ih'
    have hargs : k + (i :: rest).length = (k + 1) + rest.length := by
      rw [hlen1]; omega
    refine ⟨?_, ih2, ?_, ?_⟩
    · rw [ih1, hargs]
    · intro hlt
      rw [hargs] at hlt
      rw [ih3 hlt]
      show (if k + 1 = 40 then st.targetPattern else st.currentPattern) = st.currentPattern
      rw [if_neg (by omega : ¬ k + 1 = 40)]
    · intro heq
      rw [hargs] at heq
      exact ih4 heq

/-- Claim C4 (confirmed): from a stable state (progress pinned at 1) and
with the 180-frame dwell elapsed, a triggering frame resets the progress
and starts a transition toward `choice`; thereafter the progress advances
by exactly the fixed step 0.025 on every processed frame (the trigger
frame included), the target stays fixed because no new transition can
start while the progress is below 1, and on the frame the progress
reaches exactly 1 — the 40th — the current pattern becomes the target. -/
theorem pattern_transition_progress (st : PatternState) (choice : ℕ)
    (ins : List (Bool × ℕ)) (h1 : st.patternTransition = 1)
    (h2 : 180 ≤ st.patternChangeCounter) (hlen : ins.length ≤ 39) :
    (patternRun ins (patternStep true choice st)).patternTransition =
      ((1 + ins.length : ℕ) : ℚ) * 0.025 ∧
    (patternRun ins (patternStep true choice st)).targetPattern = choice ∧
    (1 + ins.length < 40 →
      (patternRun ins (patternStep true choice st)).currentPattern = st.currentPattern) ∧
    (1 + ins.length = 40 →
      (patternRun ins (patternStep true choice st)).currentPattern = choice) := by
  rw [patternStep_fire choice st h1 h2]
  exact patternRun_mid ins 1 ⟨st.currentPattern, choice, 0.025, 0⟩
    le_rfl (by omega) (by norm_num) (fun h40 => absurd h40 (by omega))

/-- Claim C4 witness: trigger a transition toward pattern 5 from the
stable state `⟨1, 1, 1, 200⟩` and process no further frames: the progress
is one step in (`0.025`), the target is 5 and the current pattern is still
1. -/
theorem pattern_transition_progress_witness :
    (patternRun ([] : List (Bool × ℕ))
      (patternStep true 5 ⟨1, 1, 1, 200⟩)).patternTransition =
      ((1 + ([] : List (Bool × ℕ)).length : ℕ) : ℚ) * 0.025 ∧
    (patternRun ([] : List (Bool × ℕ))
      (patternStep true 5 ⟨1, 1, 1, 200⟩)).targetPattern = 5 ∧
    (1 + ([] : List (Bool × ℕ)).length < 40 →
      (patternRun ([] : List (Bool × ℕ))
        (patternStep true 5 ⟨1, 1, 1, 200⟩)).currentPattern = 1) ∧
    (1 + ([] : List (Bool × ℕ)).length = 40 →
      (patternRun ([] : List (Bool × ℕ))
        (patternStep true 5 ⟨1, 1, 1, 200⟩)).currentPattern = 5) :=
  pattern_transition_progress ⟨1, 1, 1, 200⟩ 5 [] (by norm_num) (by norm_num)
    (by simp)

/-- When a beat-detector step fires, the cooldown had elapsed and
`lastBeat` becomes the firing frame; when it does not, `lastBeat` is kept. -/
theorem beatStep_fire_lastBeat (frame : ℤ) (bass : ℚ) (st : BeatState) :
    ((beatStep frame bass st).2 = true →
      10 < frame - st.lastBeat ∧ (beatStep frame bass st).1.lastBeat = frame) ∧
    ((beatStep frame bass st).2 = false →
      (beatStep frame bass st).1.lastBeat = st.lastBeat) := by
  simp only [beatStep]
  split
  next h =>
    refine ⟨fun _ => ⟨h.2.2, rfl⟩, fun hfalse => ?_⟩
    simp at hfalse
  next h =>
    refine ⟨fun htrue => ?_, fun _ => rfl⟩
    simp at htrue

/-- Every event of a detector run carries a frame number at least the
starting frame. -/
theorem beatRun_frame_lb (bs : List ℚ) (frame : ℤ) (st : BeatState) :
    ∀ e ∈ (beatRun frame st bs).1, frame ≤ e.1 := by
  induction bs generalizing frame st with
  | nil => intro e he; simp [beatRun] at he
  | cons b rest ih =>
    intro e he
    simp only [beatRun] at he
    rcases List.mem_cons.mp he with heq | hmem
    · rw [heq]
    · have := ih (frame + 1) (beatStep frame b st).1 e hmem
      omega

/-- Every fire event of a detector run lies strictly more than the
cooldown past the starting state's `lastBeat`. -/
theorem beatRun_fire_gap (bs : List ℚ) (frame : ℤ) (st : BeatState) :
    ∀ f, (f, true) ∈ (beatRun frame st bs).1 → st.lastBeat + 10 < f := by
  induction bs generalizing frame st with
  | nil => intro f hf; simp [beatRun] at hf
  | cons b rest ih =>
    intro f hf
    simp only [beatRun] at hf
    rcases List.mem_cons.mp hf with heq | hmem
    · have hf1 : f = frame := congrArg Prod.fst heq
      have hf2 : (beatStep frame b st).2 = true := (congrArg Prod.snd heq).symm
      have hgap := ((beatStep_fire_lastBeat frame b st).1 hf2).1
      omega
    · have htail := ih (frame + 1) (beatStep frame b st).1 f hmem
      rcases Bool.eq_false_or_eq_true (beatStep frame b st).2 with htrue | hfalse
      · obtain ⟨hgap, hset⟩ := (beatStep_fire_lastBeat frame b st).1 htrue
        rw [hset] at htail
        omega
      · have hkeep := (beatStep_fire_lastBeat frame b st).2 hfalse
        rw [hkeep] at htail
        omega

/-- No two fire events of a detector run are within the 10-frame cooldown
of each other. -/
theorem beatRun_no_double (bs : List ℚ) (frame : ℤ) (st : BeatState) :
    ∀ f f', (f, true) ∈ (beatRun frame st bs).1 → (f', true) ∈ (beatRun frame st bs).1 →
      f < f' → 10 < f' - f := by
  induction bs generalizing frame st with
  | nil => intro f f' hf _ _; simp [beatRun] at hf
  | cons b rest ih =>
    intro f f' hf hf' hlt
    simp only [beatRun] at hf hf'
    rcases List.mem_cons.mp hf with heq | hmem
    · have hf1 : f = frame := congrArg Prod.fst heq
      have hf2 : (beatStep frame b st).2 = true := (congrArg Prod.snd heq).symm
      rcases List.mem_cons.mp hf' with heq' | hmem'
      · have hf'1 : f' = frame := congrArg Prod.fst heq'
        omega
      · obtain ⟨hgap, hset⟩ := (beatStep_fire_lastBeat frame b st).1 hf2
        have hg := beatRun_fire_gap rest (frame + 1) (beatStep frame b st).1 f' hmem'
        rw [hset] at hg
        omega
    · rcases List.mem_cons.mp hf' with heq' | hmem'
      · have hf'1 : f' = frame := congrArg Prod.fst heq'
        have hlb : frame + 1 ≤ (f, true).1 :=
          beatRun_frame_lb rest (frame + 1) (beatStep frame b st).1 (f, true) hmem
        have hlb' : frame + 1 ≤ f := hlb
        omega
      · exact ih (frame + 1) (beatStep frame b st).1 f f' hmem hmem' hlt

/-- One detector step keeps `confidence` inside `[0, 1]`. -/
theorem beatStep_confidence (frame : ℤ) (bass : ℚ) (st : BeatState)
    (h0 : 0 ≤ st.confidence) (h1 : st.confidence ≤ 1) :
    0 ≤ (beatStep frame bass st).1.confidence ∧
    (beatStep frame bass st).1.confidence ≤ 1 := by
  simp only [beatStep]
  split
  · constructor
    · show (0 : ℚ) ≤ min 1 (st.confidence + 0.1)
      exact le_min (by norm_num) (by linarith)
    · show min (1 : ℚ) (st.confidence + 0.1) ≤ 1
      exact min_le_left _ _
  · constructor
    · show (0 : ℚ) ≤ max 0 (st.confidence - 0.01)
      exact le_max_left _ _
    · show max (0 : ℚ) (st.confidence - 0.01) ≤ 1
      exact max_le (by norm_num) (by linarith)

/-- A whole detector run keeps `confidence` inside `[0, 1]`. -/
theorem beatRun_confidence (bs : List ℚ) (frame : ℤ) (st : BeatState)
    (h0 : 0 ≤ st.confidence) (h1 : st.confidence ≤ 1) :
    0 ≤ (beatRun frame st bs).2.confidence ∧ (beatRun frame st bs).2.confidence ≤ 1 := by
  induction bs generalizing frame st with
  | nil => exact ⟨h0, h1⟩
  | cons b rest ih =>
    have hstep := beatStep_confidence frame b st h0 h1
    show 0 ≤ (beatRun (frame + 1) (beatStep frame b st).1 rest).2.confidence ∧
      (beatRun (frame + 1) (beatStep frame b st).1 rest).2.confidence ≤ 1
    exact ih (frame + 1) (beatStep frame b st).1 hstep.1 hstep.2

/-- Claim C5 (confirmed): for every input sequence fed to the beat
detector, beats never fire twice within the cooldown — if beats fire at
frames `f < f'` of the same run then `f' - f > 10` — and after any
sequence of updates the confidence remains within `[0, 1]` (incremented by
0.1 clamped above at 1 on a beat, decremented by 0.01 clamped below at 0
otherwise). -/
theorem beat_cooldown_and_confidence (bs : List ℚ) (frame : ℤ) (st : BeatState)
    (hc0 : 0 ≤ st.confidence) (hc1 : st.confidence ≤ 1) (f f' : ℤ)
    (hf : (f, true) ∈ (beatRun frame st bs).1)
    (hf' : (f', true) ∈ (beatRun frame st bs).1) (hlt : f < f') :
    10 < f' - f ∧ 0 ≤ (beatRun frame st bs).2.confidence ∧
    (beatRun frame st bs).2.confidence ≤ 1 :=
  ⟨beatRun_no_double bs frame st f f' hf hf' hlt,
   (beatRun_confidence bs frame st hc0 hc1).1,
   (beatRun_confidence bs frame st hc0 hc1).2⟩

/-- Claim C5 witness: a run from frame 100 with a bass spike, eleven
silent frames and a second spike fires at frames 100 and 112; the theorem
applies and yields the 12-frame gap and the confidence bounds. -/
theorem beat_cooldown_and_confidence_witness :
    10 < (112 : ℤ) - 100 ∧
    0 ≤ (beatRun 100 beatInit ([1] ++ List.replicate 11 0 ++ [1])).2.confidence ∧
    (beatRun 100 beatInit ([1] ++ List.replicate 11 0 ++ [1])).2.confidence ≤ 1 :=
  beat_cooldown_and_confidence ([1] ++ List.replicate 11 0 ++ [1]) 100 beatInit
    (by norm_num [beatInit]) (by norm_num [beatInit]) 100 112
    (by decide) (by decide) (by norm_num)

/-- Symmetry runs compose over concatenated input lists. -/
theorem symRun_append (M : ℤ) (a b : List SymInput) (st : SymState) :
    symRun M (a ++ b) st = symRun M b (symRun M a st) := by
  induction a generalizing st with
  | nil => rfl
  | cons x xs ih =>
    show symRun M (xs ++ b) (symStep M x st) = symRun M b (symRun M xs (symStep M x st))
    exact ih (symStep M x st)

/-- A silent frame in a stable state only advances the frame counter: the
trigger cannot fire because the energy trend is flat, and the
interpolation block is skipped because the transition is pinned at 1. -/
theorem symStep_quiet (M : ℤ) (st : SymState) (h : st.symmetryTransition = 1) :
    symStep M quietInput st =
      ⟨st.frame + 1, st.symmetry, st.targetSymmetry, st.symmetryTransition,
       st.lastSymmetryChange⟩ := by
  have htrend : ¬ |quietInput.energyTrend| > (0.15 : ℚ) := by
    norm_num [quietInput]
  have htrig : ¬ ((quietInput.bassImpact = true ∧ quietInput.confidence > 0.6) ∨
      (st.frame + 1 - st.lastSymmetryChange > 120 ∧ |quietInput.energyTrend| > 0.15)) := by
    rintro (⟨hb, _⟩ | ⟨_, ht⟩)
    · simp [quietInput] at hb
    · exact htrend ht
  simp only [symStep, if_neg htrig, h]
  rw [if_neg (by norm_num : ¬ (1 : ℚ) < 1)]

/-- A run of silent frames from a stable state only advances the frame
counter. -/
theorem symRun_quiet (M : ℤ) (n : ℕ) (st : SymState) (h : st.symmetryTransition = 1) :
    symRun M (List.replicate n quietInput) st =
      ⟨st.frame + n, st.symmetry, st.targetSymmetry, st.symmetryTransition,
       st.lastSymmetryChange⟩ := by
  induction n generalizing st with
  | zero => simp [symRun]
  | succ k ih =>
    rw [List.replicate_succ]
    show symRun M (List.replicate k quietInput) (symStep M quietInput st) = _
    rw [symStep_quiet M st h,
      ih ⟨st.frame + 1, st.symmetry, st.targetSymmetry, st.symmetryTransition,
        st.lastSymmetryChange⟩ h]
    simp only [SymState.mk.injEq, and_true, true_and]
    show st.frame + 1 + (k : ℤ) = st.frame + ((k + 1 : ℕ) : ℤ)
    push_cast
    ring

/-- Claim C1 (counterexample): the claim says `currentSymmetry` is an even
integer in `[4, maxSymmetry]` at every frame, including frames before the
first symmetry change; in fact (a) under the mobile profile
(`maxSymmetry = 4`) the very first frame still has the initial symmetry 8,
outside `[4, 4]`, and (b) under the default profile (`maxSymmetry = 10`) a
trend-triggered transition from 8 toward 6 passes through the odd value 7
(at `symmetryTransition = 0.26`, `Math.round(8 * 0.74 + 6 * 0.26) = 7`)
in a state reachable from the initial state. -/
theorem symmetry_claim_cex :
    (symRun 4 [quietInput] symInit).symmetry = 8 ∧
    ¬ (symRun 4 [quietInput] symInit).symmetry ≤ 4 ∧
    (symRun 10 oddSymInputs symInit).symmetry = 7 ∧
    ¬ (2 : ℤ) ∣ (symRun 10 oddSymInputs symInit).symmetry := by
  have hsplit : oddSymInputs =
      List.replicate 121 quietInput ++ ([trendTrigInput] ++ List.replicate 12 quietInput) := by
    simp [oddSymInputs]
  have h121 : symRun 10 (List.replicate 121 quietInput) symInit = ⟨121, 8, 8, 1, 0⟩ := by
    rw [symRun_quiet 10 121 symInit rfl]
    norm_num [symInit]
  have hrest : (symRun 10 ([trendTrigInput] ++ List.replicate 12 quietInput)
      ⟨121, 8, 8, 1, 0⟩).symmetry = 7 := by decide
  have hodd : (symRun 10 oddSymInputs symInit).symmetry = 7 := by
    rw [hsplit, symRun_append, h121]
    exact hrest
  refine ⟨by decide, by decide, hodd, ?_⟩
  rw [hodd]
  decide

/-- The rounded interpolation between two integers of `[4, K]` with a
weight in `[0, 1]` lands back in `[4, K]`. -/
theorem jsRound_interp_bounds (s tg K : ℤ) (t : ℚ) (h1 : 4 ≤ s) (h2 : s ≤ K)
    (h3 : 4 ≤ tg) (h4 : tg ≤ K) (ht0 : 0 ≤ t) (ht1 : t ≤ 1) :
    4 ≤ jsRound ((s : ℚ) * (1 - t) + (tg : ℚ) * t) ∧
    jsRound ((s : ℚ) * (1 - t) + (tg : ℚ) * t) ≤ K := by
  have hcast1 : (4 : ℚ) ≤ (s : ℚ) := by exact_mod_cast h1
  have hcast2 : (s : ℚ) ≤ (K : ℚ) := by exact_mod_cast h2
  have hcast3 : (4 : ℚ) ≤ (tg : ℚ) := by exact_mod_cast h3
  have hcast4 : (tg : ℚ) ≤ (K : ℚ) := by exact_mod_cast h4
  have hclo : (4 : ℚ) ≤ (s : ℚ) * (1 - t) + (tg : ℚ) * t := by nlinarith
  have hchi : (s : ℚ) * (1 - t) + (tg : ℚ) * t ≤ (K : ℚ) := by nlinarith
  constructor
  · rw [jsRound, Int.le_floor]
    push_cast
    linarith
  · have hup : ⌊(s : ℚ) * (1 - t) + (tg : ℚ) * t + 1/2⌋ < K + 1 := by
      rw [Int.floor_lt]
      push_cast
      linarith
    rw [jsRound]
    omega

/-- On a trigger, the rolled target is clamped into `[4, maxSymmetry]`,
hence into `[4, max 8 maxSymmetry]`. -/
theorem symTarget_bounds (M rolled : ℤ) (hM : 4 ≤ M) :
    4 ≤ min M (max 4 rolled) ∧ min M (max 4 rolled) ≤ max 8 M :=
  ⟨le_min hM (le_max_left _ _), le_trans (min_le_left _ _) (le_max_right _ _)⟩

/-- One symmetry step preserves the amended invariant: symmetry and target
stay in `[4, max 8 maxSymmetry]` and the transition stays nonnegative,
provided `maxSymmetry ≥ 4`. -/
theorem symStep_preserves (M : ℤ) (hM : 4 ≤ M) (inp : SymInput) (st : SymState)
    (h1 : 4 ≤ st.symmetry) (h2 : st.symmetry ≤ max 8 M)
    (h3 : 4 ≤ st.targetSymmetry) (h4 : st.targetSymmetry ≤ max 8 M)
    (h5 : 0 ≤ st.symmetryTransition) :
    4 ≤ (symStep M inp st).symmetry ∧ (symStep M inp st).symmetry ≤ max 8 M ∧
    4 ≤ (symStep M inp st).targetSymmetry ∧
    (symStep M inp st).targetSymmetry ≤ max 8 M ∧
    0 ≤ (symStep M inp st).symmetryTransition := by
  by_cases htrig : (inp.bassImpact = true ∧ inp.confidence > 0.6) ∨
      (st.frame + 1 - st.lastSymmetryChange > 120 ∧ |inp.energyTrend| > 0.15)
  · simp only [symStep, if_pos htrig]
    rw [if_pos (show (0 : ℚ) < 1 by norm_num)]
    set R : ℤ :=
      (if inp.bassLevel > 0.7 ∧ inp.bassLevel > inp.highMidLevel then
        (4 : ℤ) + jsFloor (inp.rand * 4) * 2
      else if inp.lowMidLevel > 0.6 then
        4 + 2 + jsFloor (inp.rand * 4) * 2
      else
        4 + 4 + jsFloor (inp.rand * ((M : ℚ) - 8) / 2) * 2) with hR
    have htb := symTarget_bounds M R hM
    have htt0 : 0 ≤ min (1 : ℚ) (0 + 0.02) := by norm_num
    have htt1 : min (1 : ℚ) (0 + 0.02) ≤ 1 := min_le_left _ _
    have hround := jsRound_interp_bounds st.symmetry (min M (max 4 R)) (max 8 M)
      (min 1 (0 + 0.02)) h1 h2 htb.1 htb.2 htt0 htt1
    exact ⟨hround.1, hround.2, htb.1, htb.2, htt0⟩
  · simp only [symStep, if_neg htrig]
    by_cases hlt : st.symmetryTransition < 1
    · rw [if_pos hlt]
      have htt0 : 0 ≤ min (1 : ℚ) (st.symmetryTransition + 0.02) :=
        le_min (by norm_num) (by linarith)
      have htt1 : min (1 : ℚ) (st.symmetryTransition + 0.02) ≤ 1 := min_le_left _ _
      have hround := jsRound_interp_bounds st.symmetry st.targetSymmetry (max 8 M)
        (min 1 (st.symmetryTransition + 0.02)) h1 h2 h3 h4 htt0 htt1
      exact ⟨hround.1, hround.2, h3, h4, htt0⟩
    · rw [if_neg hlt]
      exact ⟨h1, h2, h3, h4, h5⟩

/-- The amended invariant holds along every run from the initial state. -/
theorem symRun_inv (M : ℤ) (hM : 4 ≤ M) (inputs : List SymInput) (st : SymState)
    (h1 : 4 ≤ st.symmetry) (h2 : st.symmetry ≤ max 8 M)
    (h3 : 4 ≤ st.targetSymmetry) (h4 : st.targetSymmetry ≤ max 8 M)
    (h5 : 0 ≤ st.symmetryTransition) :
    4 ≤ (symRun M inputs st).symmetry ∧ (symRun M inputs st).symmetry ≤ max 8 M := by
  induction inputs generalizing st with
  | nil => exact ⟨h1, h2⟩
  | cons i rest ih =>
    obtain ⟨g1, g2, g3, g4, g5⟩ := symStep_preserves M hM i st h1 h2 h3 h4 h5
    show 4 ≤ (symRun M rest (symStep M i st)).symmetry ∧
      (symRun M rest (symStep M i st)).symmetry ≤ max 8 M
    exact ih (symStep M i st) g1 g2 g3 g4 g5

/-- Claim C1 (amended): at every frame of the render loop, under a profile
with `maxSymmetry ≥ 4`, the symmetry state variable is an integer in
`[4, max 8 maxSymmetry]`; it need not be even during an active transition
(the rounded interpolation passes through odd values), and it can exceed
`maxSymmetry` before the first completed transition whenever
`maxSymmetry < 8`, because it starts at 8. -/
theorem symmetry_bound_amended (M : ℤ) (hM : 4 ≤ M) (inputs : List SymInput) :
    4 ≤ (symRun M inputs symInit).symmetry ∧
    (symRun M inputs symInit).symmetry ≤ max 8 M :=
  symRun_inv M hM inputs symInit (by norm_num [symInit])
    (le_trans (by norm_num [symInit]) (le_max_left _ _))
    (by norm_num [symInit])
    (le_trans (by norm_num [symInit]) (le_max_left _ _))
    (by norm_num [symInit])

/-- Claim C1 (amended) witness: one silent frame under the mobile profile
keeps the symmetry (8) inside `[4, max 8 4]`. -/
theorem symmetry_bound_amended_witness :
    4 ≤ (symRun 4 [quietInput] symInit).symmetry ∧
    (symRun 4 [quietInput] symInit).symmetry ≤ max 8 4 :=
  symmetry_bound_amended 4 (by norm_num) [quietInput]

end MusicViz
